import Mathlib

/-
  Verification development for the Batch Order Resolution Engine of the
  download-airwaybill repository.

  The embedding follows src/client/lib/orderSearch.ts.  TypeScript arrays
  become Lean lists; JavaScript Sets (which iterate in insertion order and
  are only used for order-preserving deduplication and membership tests)
  become duplicate-free lists; the network is modelled by a deterministic
  oracle mapping a batch index to the sequence of page responses the
  upstream produces for that batch, and `fetch`/`Promise` failure is
  modelled with `Except`.  `Promise.all` over a window of batches is
  determinized to left-to-right sequencing: it fails exactly when some
  batch fails, and the reported error is the first failing batch's error
  in batch order (the real code reports the first rejection to settle;
  every theorem below either involves at most one failing batch or a set
  of batches all failing with the same error, so the determinization is
  harmless).
-/

namespace OrderSearch

/-! ### dedupePreserveOrder (orderSearch.ts lines 44-56)

The source iterates over the array keeping a `seen` Set and appending
first occurrences to the result.  `dedupeGo` is that loop with the seen
set as a list (only membership is ever queried on it). -/

def dedupeGo [DecidableEq α] (seen : List α) : List α → List α
  | [] => []
  | a :: l => if a ∈ seen then dedupeGo seen l else a :: dedupeGo (a :: seen) l

def dedupePreserveOrder [DecidableEq α] (arr : List α) : List α :=
  dedupeGo [] arr

/-! ### normalizeOrderNumbers (orderSearch.ts lines 64-75)

`input.split(/[,\s]+/)` splits on maximal runs of commas and whitespace.
`splitSingle` splits at every single separator character instead; the two
differ only in extra empty pieces between adjacent separators, and the
very next step `.filter(Boolean)` removes all empty pieces, so the
composition is the same function.  `trimChars` is `String.prototype.trim`
(strip leading and trailing whitespace). -/

def isSepChar (c : Char) : Bool := c = ',' || c.isWhitespace

def consHead (c : Char) : List (List Char) → List (List Char)
  | [] => [[c]]
  | t :: ts => (c :: t) :: ts

def splitSingle : List Char → List (List Char)
  | [] => [[]]
  | c :: rest =>
    if isSepChar c then [] :: splitSingle rest else consHead c (splitSingle rest)

def trimChars (l : List Char) : List Char :=
  ((l.dropWhile Char.isWhitespace).reverse.dropWhile Char.isWhitespace).reverse

/-- The pieces of the raw input: split, trim each piece, drop empties. -/
def tokenPieces (input : String) : List String :=
  ((splitSingle input.data).map (fun p => String.mk (trimChars p))).filter
    (fun s => !s.isEmpty)

/-- Lines 64-75: `if (!input.trim()) return []` then split / trim /
filter(Boolean) / dedupePreserveOrder. -/
def normalizeOrderNumbers (input : String) : List String :=
  if (trimChars input.data).isEmpty then []
  else dedupePreserveOrder (tokenPieces input)

/-! ### Batching (orderSearch.ts lines 262-265 and 276-277)

Both the batch construction and the concurrency windows use the same
`for (i = 0; i < xs.length; i += n) chunks.push(xs.slice(i, i + n))`
pattern.  `chunkGo` is that loop written with an accumulator for the
current chunk so that it is structurally recursive; the take/drop
characterisation of the slice loop is proved below
(`chunksOf_eq_slice`). -/

def chunkGo (n : Nat) : Nat → List α → List α → List (List α)
  | _, acc, [] => if acc.isEmpty then [] else [acc]
  | k, acc, x :: xs =>
    if k ≤ 1 then (acc ++ [x]) :: chunkGo n n [] xs
    else chunkGo n (k - 1) (acc ++ [x]) xs

def chunksOf (n : Nat) (l : List α) : List (List α) :=
  chunkGo n n [] l

/-! ### Order records and page responses

An Order Record (an element of the upstream response list) is observed by
the code in exactly three ways: `Number(item.id)` followed by
`Number.isFinite` (modelled as `id : Option Int`, `some n` iff the id
field parses as a finite number n), `String(item.order_number)` guarded by
an `undefined` check (modelled as `order_number : Option String`, the
string form when present), and `Array.isArray(item.locations)` (modelled
as a Boolean).  A page response is either an HTTP response with a status
and the extracted body (`data?.data?.list ?? data?.list ?? []` and
`data?.data?.total ?? data?.total`), or an abort of the request by the
batch's 30s timeout. -/

structure OrderItem where
  id : Option Int
  order_number : Option String
  locationsIsArray : Bool
deriving DecidableEq, Repr

inductive PageResp where
  | http (status : Nat) (list : List OrderItem) (total : Option Nat)
  | timeout
deriving DecidableEq, Repr

/-- The errors a batch fetch can raise: `throw new Error("UNAUTHORIZED_401")`
on status 401, `throw new Error("SEARCH_FAILED_" + status)` on any other
non-2xx status, and the abort raised when the 30s timeout fires. -/
inductive FetchErr where
  | unauthorized
  | upstream (status : Nat)
  | deadline
deriving DecidableEq, Repr

structure SearchResult where
  ids : List Int
  idsEncoded : String
  notFound : List String
deriving DecidableEq, Repr

/-! ### searchBatchWithPagination (orderSearch.ts lines 83-187)

The pagination loop.  The oracle's list holds the scripted responses for
pages 0, 1, ...; when the loop asks for a page beyond the script the
upstream has no more data and answers with an empty 2xx page (which is
still one issued page request, hence the `.ok (1, [])`).  The returned
`Nat` counts issued page requests; the item list is the concatenation of
all fetched pages (`allItems`). -/

def totalReached (apiTotal : Option Nat) (collected : Nat) : Bool :=
  match apiTotal with
  | some t => collected ≥ t
  | none => false

/-- Lines 145-147: `if (apiTotal === undefined && total !== undefined)
apiTotal = total` — the first observed total is kept for the rest of the
loop. -/
def nextApiTotal (apiTotal total : Option Nat) : Option Nat :=
  if apiTotal = none then total else apiTotal

def fetchPages (reqSize : Nat) : Option Nat → Nat → List PageResp →
    Except FetchErr (Nat × List OrderItem)
  | _, _, [] => .ok (1, [])
  | apiTotal, collected, resp :: rest =>
    match resp with
    | .timeout => .error .deadline
    | .http status list total =>
      if status = 401 then .error .unauthorized
      else if ¬(200 ≤ status ∧ status ≤ 299) then .error (.upstream status)
      else
        if list.length = 0 then .ok (1, list)
        else if totalReached (nextApiTotal apiTotal total)
            (collected + list.length) then .ok (1, list)
        else if list.length < reqSize then .ok (1, list)
        else (fetchPages reqSize (nextApiTotal apiTotal total)
            (collected + list.length) rest).map
          (fun r => (r.1 + 1, list ++ r.2))

/-- Line 106: `size: String(Math.min(orderNumbers.length, 500))`; the loop
starts with `page = 0`, `totalCollected = 0`, `apiTotal = undefined`. -/
def searchBatchWithPagination (orderNumbers : List String)
    (responses : List PageResp) : Except FetchErr (Nat × List OrderItem) :=
  fetchPages (min orderNumbers.length 500) none 0 responses

/-- Line 108: `search: orderNumbers.join(",")` — the query value for one
batch. -/
def joinComma : List (List Char) → List Char
  | [] => []
  | [p] => p
  | p :: q :: ps => p ++ ',' :: joinComma (q :: ps)

def searchQueryValue (orderNumbers : List String) : String :=
  String.mk (joinComma (orderNumbers.map String.data))

/-! ### processBatchResults (orderSearch.ts lines 195-228) -/

/-- The filter predicate of lines 201-212: must have a `locations` array,
must have an `order_number`, and the order number must be one of the
requested ones.  The source hoists `requestedSet` (a Set built from the
batch, i.e. its order-preserving dedup) out of the loop; inlining it here
is extensionally the same predicate. -/
def keepItem (requested : List String) (it : OrderItem) : Bool :=
  it.locationsIsArray &&
    (match it.order_number with
     | some s => (dedupePreserveOrder requested).contains s
     | none => false)

/-- Lines 195-228: filter, extract finite numeric ids, and compute the
batch's own not-found list `Array.from(requestedSet).filter(...)`.  All
filtered items have an `order_number`, so mapping `String(item.order_number)`
over them is `filterMap order_number`. -/
def processBatchResults (items : List OrderItem) (requested : List String) :
    List Int × List String :=
  let filtered := items.filter (keepItem requested)
  let ids := filtered.filterMap (fun it => it.id)
  let foundNumbers := filtered.filterMap (fun it => it.order_number)
  (ids, (dedupePreserveOrder requested).filter (fun num => !(foundNumbers.contains num)))

/-! ### collectIdsPaged (orderSearch.ts lines 237-317) -/

/-- Left-to-right sequencing of a fallible function over a list: the
deterministic model of mapping batches to promises and awaiting them. -/
def mapExcept (g : α → Except ε β) : List α → Except ε (List β)
  | [] => .ok []
  | a :: l =>
    match g a with
    | .error e => .error e
    | .ok b =>
      match mapExcept g l with
      | .error e => .error e
      | .ok bs => .ok (b :: bs)

/-- The window loop of lines 276-296: process each window with
`Promise.all`, concatenating the per-batch results across windows. -/
def runWindows (g : α → Except ε β) : List (List α) → Except ε (List β)
  | [] => .ok []
  | w :: ws =>
    match mapExcept g w with
    | .error e => .error e
    | .ok bs =>
      match runWindows g ws with
      | .error e => .error e
      | .ok rest => .ok (bs ++ rest)

/-- One batch's work inside the window (lines 284-287): fetch all pages for
the batch, then post-process.  The pair carries the batch's index so the
oracle can address it. -/
def runBatchFn (oracle : Nat → List PageResp) (p : Nat × List String) :
    Except FetchErr (List Int × List String) :=
  (searchBatchWithPagination p.2 (oracle p.1)).map
    (fun r => processBatchResults r.2 p.2)

/-! ### Encoding (orderSearch.ts line 302): `uniqueIds.map(String).join('%2C')` -/

def digitChar (d : Nat) : Char := Char.ofNat (48 + d)

def natToCharsAux : Nat → Nat → List Char
  | 0, _ => []
  | fuel + 1, n =>
    if n = 0 then [] else natToCharsAux fuel (n / 10) ++ [digitChar (n % 10)]

/-- Decimal string form of a natural number (the JS `String(n)` for a
nonnegative integer). -/
def natToChars (n : Nat) : List Char :=
  if n = 0 then ['0'] else natToCharsAux n n

/-- Decimal string form of an integer (the JS `String(n)`). -/
def intToChars (n : Int) : List Char :=
  if n < 0 then '-' :: natToChars n.natAbs else natToChars n.toNat

def joinSep : List (List Char) → List Char
  | [] => []
  | [p] => p
  | p :: q :: ps => p ++ '%' :: '2' :: 'C' :: joinSep (q :: ps)

def encodeIds (ids : List Int) : String :=
  String.mk (joinSep (ids.map intToChars))

/-! ### Steps 4-6 of collectIdsPaged (lines 298-316) -/

def buildResult (results : List (List Int × List String)) : SearchResult :=
  let allIds := (results.map Prod.fst).flatten
  let allNotFound := (results.map Prod.snd).flatten
  let uniqueIds := dedupePreserveOrder allIds
  ⟨uniqueIds, encodeIds uniqueIds, dedupePreserveOrder allNotFound⟩

/-- Steps 3-6 of collectIdsPaged applied to an already-built batch list:
chunk the batches into concurrency windows, run them, then deduplicate ids,
encode, and deduplicate the not-found list. -/
def aggregateBatches (oracle : Nat → List PageResp)
    (batches : List (List String)) (concurrency : Nat) :
    Except FetchErr SearchResult :=
  match runWindows (runBatchFn oracle) (chunksOf concurrency batches.enum) with
  | .error e => .error e
  | .ok results => .ok (buildResult results)

/-- Lines 237-317: normalize, short-circuit on an empty token set, split
into batches of `batchSize`, process with `concurrency`-sized windows,
aggregate. -/
def collectIdsPaged (rawInput : String) (oracle : Nat → List PageResp)
    (batchSize concurrency : Nat) : Except FetchErr SearchResult :=
  let orderNumbers := normalizeOrderNumbers rawInput
  if orderNumbers.isEmpty then .ok ⟨[], "", []⟩
  else aggregateBatches oracle (chunksOf batchSize orderNumbers) concurrency

/-- Line 243: the defaults `batchSize = 450`, `concurrency = 6`. -/
def collectIdsPagedDefault (rawInput : String)
    (oracle : Nat → List PageResp) : Except FetchErr SearchResult :=
  collectIdsPaged rawInput oracle 450 6

/-! ### Spec-side decoding functions

These are written from the claims, not from the source: splitting a string
on the literal `%2C` separator (resp. on a comma) and parsing decimal
integers, used to state the round-trip properties. -/

def splitSep : List Char → List (List Char)
  | [] => [[]]
  | '%' :: '2' :: 'C' :: rest => [] :: splitSep rest
  | c :: rest => consHead c (splitSep rest)

def splitComma : List Char → List (List Char)
  | [] => [[]]
  | c :: rest =>
    if c = ',' then [] :: splitComma rest else consHead c (splitComma rest)

def parseDigitsAux (acc : Nat) : List Char → Option Nat
  | [] => some acc
  | c :: rest =>
    if '0' ≤ c ∧ c ≤ '9' then parseDigitsAux (acc * 10 + (c.toNat - 48)) rest
    else none

def parseNatChars : List Char → Option Nat
  | [] => none
  | l => parseDigitsAux 0 l

def parseIntChars : List Char → Option Int
  | [] => none
  | c :: rest =>
    if c = '-' then (parseNatChars rest).map (fun m => -(m : Int))
    else (parseNatChars (c :: rest)).map (fun m => (m : Int))

/-- Decode an encoded id string: zero fields for the empty string,
otherwise split on the literal `%2C` and parse every field as a decimal
integer (failing if any field does not parse). -/
def decodeIds (s : String) : Option (List Int) :=
  if s.data.isEmpty then some []
  else (splitSep s.data).mapM parseIntChars

/-- A token is found during a run when the batch containing it fetched
successfully and some fetched record passes the keep filter for that batch
while echoing the token. -/
def tokenFoundInRun (input : String) (oracle : Nat → List PageResp)
    (batchSize : Nat) (t : String) : Prop :=
  ∃ p ∈ (chunksOf batchSize (normalizeOrderNumbers input)).enum,
    ∃ r, searchBatchWithPagination p.2 (oracle p.1) = .ok r ∧
      ∃ it ∈ r.2, keepItem p.2 it = true ∧ it.order_number = some t

/-! ### Concrete stub upstreams used in the examples below -/

/-- A record carrying none of the observed fields. -/
def stubItem : OrderItem := ⟨none, none, false⟩

/-- A batch of 500 distinct tokens, so the requested page size is 500. -/
def stubBatch500 : List String := (List.range 500).map (fun k => toString k)

/-- A stub upstream producing pages of sizes 500, 500, 3 with no total. -/
def stubPages500 : List PageResp :=
  [.http 200 (List.replicate 500 stubItem) none,
   .http 200 (List.replicate 500 stubItem) none,
   .http 200 (List.replicate 3 stubItem) none]

/-- Every batch fails with HTTP 500. -/
def upstream500Oracle : Nat → List PageResp :=
  fun _ => [.http 500 [] none]

/-- Batch 0 fails with HTTP 500; all other batches succeed with an empty
page. -/
def firstBatchFailsOracle : Nat → List PageResp :=
  fun i => if i = 0 then [.http 500 [] none] else [.http 200 [] none]

/-- One record with a numeric id but no echoed order number. -/
def noEchoOracle : Nat → List PageResp :=
  fun _ => [.http 200 [⟨some 5, none, true⟩] none]

/-- One record echoing token "T" whose id does not parse as a finite
number. -/
def nonNumericIdOracle : Nat → List PageResp :=
  fun _ => [.http 200 [⟨none, some "T", true⟩] none]

/-- One record echoing token "T" with id 7. -/
def echoes7Oracle : Nat → List PageResp :=
  fun _ => [.http 200 [⟨some 7, some "T", true⟩] none]

/-- Batch 0 gets a record matching "999" with id 1; every other batch gets
an empty result. -/
def overlapOracle : Nat → List PageResp :=
  fun i => if i = 0 then [.http 200 [⟨some 1, some "999", true⟩] none] else []

/-- One record echoing token "X" with id 2. -/
def echoes2Oracle : Nat → List PageResp :=
  fun _ => [.http 200 [⟨some 2, some "X", true⟩] none]

/-- Batch 0 succeeds with an empty page; every other batch gets HTTP 401. -/
def secondBatch401Oracle : Nat → List PageResp :=
  fun i => if i = 0 then [.http 200 [] none] else [.http 401 [] none]

/-- One record echoing token "A" with id 12. -/
def echoes12Oracle : Nat → List PageResp :=
  fun _ => [.http 200 [⟨some 12, some "A", true⟩] none]

end OrderSearch


namespace OrderSearch

/-! ### Lemmas about dedupePreserveOrder -/

theorem mem_dedupeGo [DecidableEq α] (seen : List α) (l : List α) (x : α) :
    x ∈ dedupeGo seen l ↔ x ∈ l ∧ x ∉ seen := by
  induction l generalizing seen with
  | nil => simp [dedupeGo]
  | cons a l ih =>
    by_cases ha : a ∈ seen
    · rw [dedupeGo, if_pos ha, ih]
      constructor
      · rintro ⟨hx, hs⟩; exact ⟨List.mem_cons_of_mem _ hx, hs⟩
      · rintro ⟨hx, hs⟩
        rcases List.mem_cons.mp hx with rfl | hx'
        · exact absurd ha hs
        · exact ⟨hx', hs⟩
    · rw [dedupeGo, if_neg ha]
      constructor
      · intro hmem
        rcases List.mem_cons.mp hmem with rfl | hx'
        · exact ⟨List.mem_cons_self _ _, ha⟩
        · obtain ⟨hl, hs⟩ := (ih (a :: seen)).mp hx'
          exact ⟨List.mem_cons_of_mem _ hl, fun h => hs (List.mem_cons_of_mem _ h)⟩
      · rintro ⟨hx, hs⟩
        rcases List.mem_cons.mp hx with rfl | hx'
        · exact List.mem_cons_self _ _
        · by_cases hxa : x = a
          · subst hxa; exact List.mem_cons_self _ _
          · refine List.mem_cons_of_mem _ ((ih (a :: seen)).mpr ⟨hx', ?_⟩)
            intro h
            rcases List.mem_cons.mp h with h' | h'
            · exact hxa h'
            · exact hs h'

theorem mem_dedupePreserveOrder [DecidableEq α] (l : List α) (x : α) :
    x ∈ dedupePreserveOrder l ↔ x ∈ l := by
  simp [dedupePreserveOrder, mem_dedupeGo]

theorem nodup_dedupeGo [DecidableEq α] (seen : List α) (l : List α) :
    (dedupeGo seen l).Nodup := by
  induction l generalizing seen with
  | nil => simp [dedupeGo]
  | cons a l ih =>
    by_cases ha : a ∈ seen
    · rw [dedupeGo, if_pos ha]; exact ih seen
    · rw [dedupeGo, if_neg ha]
      refine List.nodup_cons.mpr ⟨?_, ih (a :: seen)⟩
      intro h
      exact ((mem_dedupeGo _ _ _).mp h).2 (List.mem_cons_self a seen)

theorem nodup_dedupePreserveOrder [DecidableEq α] (l : List α) :
    (dedupePreserveOrder l).Nodup := nodup_dedupeGo [] l

theorem sublist_dedupeGo [DecidableEq α] (seen : List α) (l : List α) :
    (dedupeGo seen l).Sublist l := by
  induction l generalizing seen with
  | nil => simp [dedupeGo]
  | cons a l ih =>
    by_cases ha : a ∈ seen
    · rw [dedupeGo, if_pos ha]; exact (ih seen).cons a
    · rw [dedupeGo, if_neg ha]; exact (ih (a :: seen)).cons₂ a

theorem sublist_dedupePreserveOrder [DecidableEq α] (l : List α) :
    (dedupePreserveOrder l).Sublist l := sublist_dedupeGo [] l

theorem dedupeGo_congr [DecidableEq α] (s₁ s₂ : List α) (l : List α)
    (h : ∀ y, y ∈ s₁ ↔ y ∈ s₂) : dedupeGo s₁ l = dedupeGo s₂ l := by
  induction l generalizing s₁ s₂ with
  | nil => rfl
  | cons a l ih =>
    by_cases ha : a ∈ s₁
    · rw [dedupeGo, if_pos ha, dedupeGo, if_pos ((h a).mp ha), ih _ _ h]
    · rw [dedupeGo, if_neg ha, dedupeGo, if_neg (fun hb => ha ((h a).mpr hb))]
      refine congrArg _ (ih _ _ ?_)
      intro y
      constructor
      · intro hy
        rcases List.mem_cons.mp hy with rfl | hy'
        · exact List.mem_cons_self _ _
        · exact List.mem_cons_of_mem _ ((h y).mp hy')
      · intro hy
        rcases List.mem_cons.mp hy with rfl | hy'
        · exact List.mem_cons_self _ _
        · exact List.mem_cons_of_mem _ ((h y).mpr hy')

theorem dedupeGo_seen_filter [DecidableEq α] (a : α) (s : List α) (l : List α) :
    dedupeGo (a :: s) l = dedupeGo s (l.filter (fun b => b ≠ a)) := by
  induction l generalizing s with
  | nil => rfl
  | cons x l ih =>
    by_cases hxa : x = a
    · subst hxa
      rw [dedupeGo, if_pos (List.mem_cons_self x s)]
      have hfil : (x :: l).filter (fun b => b ≠ x) = l.filter (fun b => b ≠ x) := by
        simp
      rw [hfil]
      exact ih s
    · have hfil : (x :: l).filter (fun b => b ≠ a) =
        x :: l.filter (fun b => b ≠ a) := by
        simp [List.filter_cons, hxa]
      rw [hfil]
      by_cases hxs : x ∈ s
      · rw [dedupeGo, if_pos (List.mem_cons_of_mem _ hxs), dedupeGo, if_pos hxs]
        exact ih s
      · have hx1 : x ∉ a :: s := by
          intro h
          rcases List.mem_cons.mp h with h' | h'
          · exact hxa h'
          · exact hxs h'
        rw [dedupeGo, if_neg hx1, dedupeGo, if_neg hxs]
        refine congrArg _ ?_
        rw [dedupeGo_congr (x :: a :: s) (a :: x :: s) l ?_]
        · exact ih (x :: s)
        · intro y
          constructor <;> intro hy <;>
            (rcases List.mem_cons.mp hy with rfl | hy' <;>
              [skip; rcases List.mem_cons.mp hy' with rfl | hy''])
          · exact List.mem_cons_of_mem _ (List.mem_cons_self _ _)
          · exact List.mem_cons_self _ _
          · exact List.mem_cons_of_mem _ (List.mem_cons_of_mem _ hy'')
          · exact List.mem_cons_of_mem _ (List.mem_cons_self _ _)
          · exact List.mem_cons_self _ _
          · exact List.mem_cons_of_mem _ (List.mem_cons_of_mem _ hy'')

theorem dedupePreserveOrder_nil [DecidableEq α] :
    dedupePreserveOrder ([] : List α) = [] := rfl

theorem dedupePreserveOrder_cons [DecidableEq α] (a : α) (l : List α) :
    dedupePreserveOrder (a :: l) =
      a :: dedupePreserveOrder (l.filter (fun b => b ≠ a)) := by
  show dedupeGo [] (a :: l) = _
  rw [dedupeGo, if_neg (List.not_mem_nil a)]
  exact congrArg _ (dedupeGo_seen_filter a [] l)

/-! ### Lemmas about chunksOf -/

theorem chunkGo_flatten (n : Nat) (l : List α) :
    ∀ (k : Nat) (acc : List α), (chunkGo n k acc l).flatten = acc ++ l := by
  induction l with
  | nil =>
    intro k acc
    rw [chunkGo]
    by_cases h : acc.isEmpty
    · rw [if_pos h]
      simp [List.isEmpty_iff.mp h]
    · rw [if_neg h]
      simp
  | cons x xs ih =>
    intro k acc
    rw [chunkGo]
    by_cases hk : k ≤ 1
    · rw [if_pos hk]
      simp [ih]
    · rw [if_neg hk]
      simp [ih]

theorem chunksOf_flatten (n : Nat) (l : List α) : (chunksOf n l).flatten = l := by
  simpa using chunkGo_flatten n l n []

theorem chunkGo_mem (n : Nat) (l : List α) :
    ∀ (k : Nat) (acc : List α), 1 ≤ k → acc.length + k ≤ n →
      ∀ c ∈ chunkGo n k acc l, c ≠ [] ∧ c.length ≤ n := by
  induction l with
  | nil =>
    intro k acc hk hlen c hc
    rw [chunkGo] at hc
    by_cases h : acc.isEmpty
    · rw [if_pos h] at hc
      simp at hc
    · rw [if_neg h] at hc
      have := List.mem_singleton.mp hc
      subst this
      refine ⟨fun he => h (by simp [he]), by omega⟩
  | cons x xs ih =>
    intro k acc hk hlen c hc
    rw [chunkGo] at hc
    by_cases hk1 : k ≤ 1
    · rw [if_pos hk1] at hc
      rcases List.mem_cons.mp hc with rfl | hc'
      · refine ⟨by simp, ?_⟩
        simp only [List.length_append, List.length_singleton]
        omega
      · exact ih n [] (by omega) (by simp) c hc'
    · rw [if_neg hk1] at hc
      refine ih (k - 1) (acc ++ [x]) (by omega) ?_ c hc
      simp only [List.length_append, List.length_singleton]
      omega

theorem chunksOf_mem (n : Nat) (l : List α) (hn : 0 < n) :
    ∀ c ∈ chunksOf n l, c ≠ [] ∧ c.length ≤ n :=
  chunkGo_mem n l n [] (by omega) (by simp)

theorem chunkGo_slice (n : Nat) (l : List α) :
    ∀ (k : Nat) (acc : List α), 1 ≤ k →
      chunkGo n k acc l =
        if acc.isEmpty ∧ l.isEmpty then []
        else (acc ++ l.take k) :: chunkGo n n [] (l.drop k) := by
  induction l with
  | nil =>
    intro k acc hk
    rw [chunkGo]
    by_cases h : acc.isEmpty
    · rw [if_pos h, if_pos ⟨h, rfl⟩]
    · rw [if_neg h, if_neg (by simp [h])]
      simp [chunkGo]
  | cons x xs ih =>
    intro k acc hk
    rw [chunkGo]
    by_cases hk1 : k ≤ 1
    · have hk2 : k = 1 := by omega
      subst hk2
      rw [if_pos (le_refl 1), if_neg (by simp)]
      simp
    · rw [if_neg hk1]
      rw [ih (k - 1) (acc ++ [x]) (by omega)]
      rw [if_neg (by simp)]
      rw [if_neg (by simp)]
      have hk3 : ∃ m, k = m + 1 := ⟨k - 1, by omega⟩
      obtain ⟨m, rfl⟩ := hk3
      simp only [List.take_succ_cons, List.drop_succ_cons, Nat.add_sub_cancel]
      simp

theorem chunksOf_eq_slice (n : Nat) (l : List α) (hn : 0 < n) :
    chunksOf n l = if l.isEmpty then [] else l.take n :: chunksOf n (l.drop n) := by
  have h := chunkGo_slice n l n [] (by omega)
  simp only [List.isEmpty_nil, true_and, List.nil_append] at h
  exact h

theorem chunksOf_nil (n : Nat) : chunksOf n ([] : List α) = [] := by
  rw [chunksOf, chunkGo]
  simp

/-! ### Lemmas about mapExcept and runWindows -/

theorem mapExcept_append_error (g : α → Except ε β) (l₁ l₂ : List α) (e : ε)
    (h : mapExcept g l₁ = .error e) : mapExcept g (l₁ ++ l₂) = .error e := by
  induction l₁ with
  | nil => rw [mapExcept] at h; exact absurd h (by simp)
  | cons a l ih =>
    rw [mapExcept] at h
    rw [List.cons_append, mapExcept]
    rcases hx : g a with e' | b
    · simp only [hx] at h ⊢
      exact h
    · simp only [hx] at h ⊢
      rcases hl : mapExcept g l with e' | bs
      · simp only [hl, Except.error.injEq] at h
        subst h
        simp only [ih hl]
      · simp only [hl] at h
        exact absurd h (by simp)

theorem mapExcept_append_ok (g : α → Except ε β) (l₁ l₂ : List α) (bs : List β)
    (h : mapExcept g l₁ = .ok bs) :
    mapExcept g (l₁ ++ l₂) = (mapExcept g l₂).map (fun cs => bs ++ cs) := by
  induction l₁ generalizing bs with
  | nil =>
    rw [mapExcept] at h
    injection h with h'
    subst h'
    simp only [List.nil_append]
    cases hl2 : mapExcept g l₂ <;> simp [Except.map]
  | cons a l ih =>
    rw [mapExcept] at h
    rw [List.cons_append, mapExcept]
    rcases hx : g a with e' | b
    · simp only [hx] at h
      exact absurd h (by simp)
    · simp only [hx] at h ⊢
      rcases hl : mapExcept g l with e' | cs
      · simp only [hl] at h
        exact absurd h (by simp)
      · simp only [hl, Except.ok.injEq] at h
        subst h
        simp only [ih cs hl]
        cases hl2 : mapExcept g l₂ <;> simp [Except.map]

theorem runWindows_eq (g : α → Except ε β) (ws : List (List α)) :
    runWindows g ws = mapExcept g ws.flatten := by
  induction ws with
  | nil => rfl
  | cons w ws ih =>
    rcases hw : mapExcept g w with e | bs
    · rw [runWindows]
      simp only [hw]
      rw [List.flatten_cons, mapExcept_append_error g w ws.flatten e hw]
    · rw [runWindows]
      simp only [hw]
      rw [List.flatten_cons, mapExcept_append_ok g w ws.flatten bs hw, ← ih]
      cases hr : runWindows g ws
      · simp [Except.map]
      · simp [Except.map]

theorem mapExcept_ok_forall (g : α → Except ε β) (l : List α) (bs : List β)
    (h : mapExcept g l = .ok bs) : ∀ a ∈ l, ∃ b, g a = .ok b := by
  induction l generalizing bs with
  | nil => simp
  | cons x l ih =>
    intro a ha
    rw [mapExcept] at h
    rcases hx : g x with e | b
    · rw [hx] at h; exact absurd h (by simp)
    · rw [hx] at h
      rcases hl : mapExcept g l with e | cs
      · rw [hl] at h; exact absurd h (by simp)
      · rcases List.mem_cons.mp ha with rfl | ha'
        · exact ⟨b, hx⟩
        · exact ih cs hl a ha'

theorem mapExcept_ok_mem (g : α → Except ε β) (l : List α) (bs : List β)
    (h : mapExcept g l = .ok bs) (b : β) :
    b ∈ bs ↔ ∃ a ∈ l, g a = .ok b := by
  induction l generalizing bs with
  | nil =>
    rw [mapExcept] at h
    cases h
    simp
  | cons x l ih =>
    rw [mapExcept] at h
    rcases hx : g x with e | c
    · rw [hx] at h; exact absurd h (by simp)
    · simp only [hx] at h
      rcases hl : mapExcept g l with e | cs
      · rw [hl] at h; exact absurd h (by simp)
      · simp only [hl, Except.ok.injEq] at h
        subst h
        rw [List.mem_cons, ih cs hl]
        constructor
        · rintro (rfl | ⟨a, ha, hb⟩)
          · exact ⟨x, List.mem_cons_self x l, hx⟩
          · exact ⟨a, List.mem_cons_of_mem _ ha, hb⟩
        · rintro ⟨a, ha, hb⟩
          rcases List.mem_cons.mp ha with rfl | ha'
          · rw [hx] at hb
            exact Or.inl (by injection hb with h'; exact h'.symm)
          · exact Or.inr ⟨a, ha', hb⟩

theorem mapExcept_error_mem (g : α → Except ε β) (l : List α) (e : ε)
    (h : mapExcept g l = .error e) : ∃ a ∈ l, g a = .error e := by
  induction l with
  | nil => rw [mapExcept] at h; exact absurd h (by simp)
  | cons x l ih =>
    rw [mapExcept] at h
    rcases hx : g x with e' | c
    · rw [hx] at h
      cases h
      exact ⟨x, List.mem_cons_self x l, hx⟩
    · rw [hx] at h
      rcases hl : mapExcept g l with e' | cs
      · rw [hl] at h
        cases h
        obtain ⟨a, ha, hga⟩ := ih hl
        exact ⟨a, List.mem_cons_of_mem _ ha, hga⟩
      · rw [hl] at h; exact absurd h (by simp)

theorem mapExcept_error_at (g : α → Except ε β) (l : List α) (i : Nat) (a : α)
    (e : ε) (hget : l.get? i = some a) (herr : g a = .error e)
    (hok : ∀ j b, j < i → l.get? j = some b → ∃ c, g b = .ok c) :
    mapExcept g l = .error e := by
  induction l generalizing i with
  | nil => simp at hget
  | cons x l ih =>
    cases i with
    | zero =>
      simp only [List.get?_cons_zero, Option.some.injEq] at hget
      subst hget
      rw [mapExcept, herr]
    | succ i =>
      simp only [List.get?_cons_succ] at hget
      obtain ⟨c, hc⟩ := hok 0 x (Nat.succ_pos i) (by simp)
      rw [mapExcept, hc]
      rw [ih i hget (fun j b hj hb => hok (j + 1) b (by omega) (by simpa using hb))]

/-! ### Lemmas about splitting, trimming and normalizeOrderNumbers -/

theorem mem_consHead (c : Char) (ps : List (List Char)) (piece : List Char)
    (h : piece ∈ consHead c ps) :
    (ps = [] ∧ piece = [c]) ∨
      ∃ t ts, ps = t :: ts ∧ (piece = c :: t ∨ piece ∈ ts) := by
  cases ps with
  | nil =>
    rw [consHead] at h
    exact Or.inl ⟨rfl, List.mem_singleton.mp h⟩
  | cons t ts =>
    rw [consHead] at h
    rcases List.mem_cons.mp h with rfl | h'
    · exact Or.inr ⟨t, ts, rfl, Or.inl rfl⟩
    · exact Or.inr ⟨t, ts, rfl, Or.inr h'⟩

theorem splitSingle_sepFree (l : List Char) :
    ∀ piece ∈ splitSingle l, ∀ c ∈ piece, isSepChar c = false := by
  induction l with
  | nil =>
    intro piece hp c hc
    rw [splitSingle] at hp
    rw [List.mem_singleton.mp hp] at hc
    simp at hc
  | cons x rest ih =>
    intro piece hp c hc
    rw [splitSingle] at hp
    by_cases hx : isSepChar x
    · rw [if_pos hx] at hp
      rcases List.mem_cons.mp hp with rfl | hp'
      · simp at hc
      · exact ih piece hp' c hc
    · rw [if_neg hx] at hp
      rcases mem_consHead x _ piece hp with ⟨_, rfl⟩ | ⟨t, ts, hps, hcase⟩
      · rw [List.mem_singleton.mp hc]
        exact Bool.not_eq_true _ ▸ (by simpa using hx)
      · rcases hcase with rfl | hmem
        · rcases List.mem_cons.mp hc with rfl | hc'
          · simpa using hx
          · exact ih t (hps ▸ List.mem_cons_self t ts) c hc'
        · exact ih piece (hps ▸ List.mem_cons_of_mem t hmem) c hc

theorem splitSingle_allSep (l : List Char)
    (h : ∀ c ∈ l, isSepChar c = true) :
    ∀ piece ∈ splitSingle l, piece = [] := by
  induction l with
  | nil =>
    intro piece hp
    rw [splitSingle] at hp
    exact List.mem_singleton.mp hp
  | cons x rest ih =>
    intro piece hp
    rw [splitSingle, if_pos (h x (List.mem_cons_self x rest))] at hp
    rcases List.mem_cons.mp hp with rfl | hp'
    · rfl
    · exact ih (fun c hc => h c (List.mem_cons_of_mem x hc)) piece hp'

theorem trimChars_subset (l : List Char) (c : Char) (h : c ∈ trimChars l) :
    c ∈ l := by
  rw [trimChars, List.mem_reverse] at h
  have h1 := (List.dropWhile_sublist (l := (l.dropWhile Char.isWhitespace).reverse)
    Char.isWhitespace).mem h
  rw [List.mem_reverse] at h1
  exact (List.dropWhile_sublist (l := l) Char.isWhitespace).mem h1

theorem trimChars_nil : trimChars [] = [] := rfl

theorem trimChars_eq_nil_iff (l : List Char) :
    trimChars l = [] ↔ ∀ c ∈ l, c.isWhitespace = true := by
  constructor
  · intro h c hc
    rw [trimChars] at h
    have h1 : (l.dropWhile Char.isWhitespace).reverse.dropWhile Char.isWhitespace
        = [] := by
      have := congrArg List.reverse h
      simpa using this
    have h2 : ∀ x ∈ (l.dropWhile Char.isWhitespace).reverse,
        x.isWhitespace = true := by
      intro x hx
      exact List.dropWhile_eq_nil_iff.mp h1 x hx
    have h3 : ∀ x ∈ l.dropWhile Char.isWhitespace, x.isWhitespace = true := by
      intro x hx
      exact h2 x (List.mem_reverse.mpr hx)
    have h4 := List.takeWhile_append_dropWhile (p := Char.isWhitespace) (l := l)
    rw [← h4] at hc
    rcases List.mem_append.mp hc with hc' | hc'
    · exact List.mem_takeWhile_imp hc'
    · exact h3 c hc'
  · intro h
    rw [trimChars]
    have h1 : l.dropWhile Char.isWhitespace = [] :=
      List.dropWhile_eq_nil_iff.mpr h
    rw [h1]
    rfl

theorem tokenPieces_allWs (input : String)
    (h : ∀ c ∈ input.data, c.isWhitespace = true) : tokenPieces input = [] := by
  rw [tokenPieces, List.filter_eq_nil_iff]
  intro s hs
  rcases List.mem_map.mp hs with ⟨piece, hpiece, rfl⟩
  have hsep : ∀ c ∈ input.data, isSepChar c = true := by
    intro c hc
    rw [isSepChar, h c hc]
    simp
  rw [splitSingle_allSep input.data hsep piece hpiece, trimChars_nil]
  decide

theorem normalizeOrderNumbers_eq_dedupe (input : String) :
    normalizeOrderNumbers input = dedupePreserveOrder (tokenPieces input) := by
  rw [normalizeOrderNumbers]
  by_cases h : (trimChars input.data).isEmpty
  · rw [if_pos h]
    have hws : ∀ c ∈ input.data, c.isWhitespace = true :=
      (trimChars_eq_nil_iff input.data).mp (List.isEmpty_iff.mp h)
    rw [tokenPieces_allWs input hws]
    rfl
  · rw [if_neg h]

theorem mem_normalize_shape (input : String) (t : String)
    (h : t ∈ normalizeOrderNumbers input) :
    t ≠ "" ∧ ∀ c ∈ t.data, c ≠ ',' ∧ c.isWhitespace = false := by
  rw [normalizeOrderNumbers_eq_dedupe, mem_dedupePreserveOrder, tokenPieces,
    List.mem_filter] at h
  obtain ⟨hmem, hne⟩ := h
  rcases List.mem_map.mp hmem with ⟨piece, hpiece, rfl⟩
  constructor
  · intro hcon
    rw [hcon] at hne
    exact absurd hne (by decide)
  · intro c hc
    have hc' : c ∈ piece := trimChars_subset piece c hc
    have hsep := splitSingle_sepFree input.data piece hpiece c hc'
    rw [isSepChar] at hsep
    rcases Bool.or_eq_false_iff.mp hsep with ⟨h1, h2⟩
    refine ⟨?_, h2⟩
    intro hcc
    rw [hcc] at h1
    simp at h1

theorem normalize_nodup (input : String) :
    (normalizeOrderNumbers input).Nodup := by
  rw [normalizeOrderNumbers_eq_dedupe]
  exact nodup_dedupePreserveOrder _

/-! ### Lemmas about decimal printing and parsing -/

theorem digitChar_facts (d : Nat) (hd : d < 10) :
    ('0' ≤ digitChar d ∧ digitChar d ≤ '9') ∧ (digitChar d).toNat - 48 = d ∧
      digitChar d ≠ '%' ∧ digitChar d ≠ ',' ∧ digitChar d ≠ '-' ∧
      (digitChar d).isWhitespace = false := by
  interval_cases d <;> exact ⟨⟨by decide, by decide⟩, by decide, by decide,
    by decide, by decide, by decide⟩

theorem natToCharsAux_digits (fuel n : Nat) (h : n ≤ fuel) :
    ∀ c ∈ natToCharsAux fuel n, ∃ d, d < 10 ∧ c = digitChar d := by
  induction fuel generalizing n with
  | zero =>
    intro c hc
    rw [natToCharsAux] at hc
    simp at hc
  | succ fuel ih =>
    intro c hc
    rw [natToCharsAux] at hc
    by_cases hn : n = 0
    · rw [if_pos hn] at hc
      simp at hc
    · rw [if_neg hn] at hc
      rcases List.mem_append.mp hc with hc' | hc'
      · have h10 : n / 10 < n := Nat.div_lt_self (Nat.pos_of_ne_zero hn) (by omega)
        exact ih (n / 10) (by omega) c hc'
      · rw [List.mem_singleton.mp hc']
        exact ⟨n % 10, Nat.mod_lt n (by omega), rfl⟩

theorem natToChars_digits (n : Nat) :
    ∀ c ∈ natToChars n, ∃ d, d < 10 ∧ c = digitChar d := by
  intro c hc
  rw [natToChars] at hc
  by_cases hn : n = 0
  · rw [if_pos hn] at hc
    exact ⟨0, by omega, List.mem_singleton.mp hc⟩
  · rw [if_neg hn] at hc
    exact natToCharsAux_digits n n (le_refl n) c hc

theorem natToCharsAux_ne_nil (fuel n : Nat) (hn : n ≠ 0) (h : n ≤ fuel) :
    natToCharsAux fuel n ≠ [] := by
  cases fuel with
  | zero => omega
  | succ fuel =>
    rw [natToCharsAux, if_neg hn]
    intro hcontra
    have hlen := congrArg List.length hcontra
    simp at hlen

theorem natToChars_ne_nil (n : Nat) : natToChars n ≠ [] := by
  rw [natToChars]
  by_cases hn : n = 0
  · rw [if_pos hn]
    exact List.cons_ne_nil _ _
  · rw [if_neg hn]
    exact natToCharsAux_ne_nil n n hn (le_refl n)

theorem parseDigitsAux_append (acc : Nat) (xs ys : List Char) :
    parseDigitsAux acc (xs ++ ys) =
      match parseDigitsAux acc xs with
      | some a => parseDigitsAux a ys
      | none => none := by
  induction xs generalizing acc with
  | nil => rfl
  | cons c xs ih =>
    rw [List.cons_append, parseDigitsAux, parseDigitsAux]
    by_cases hc : '0' ≤ c ∧ c ≤ '9'
    · rw [if_pos hc, if_pos hc, ih]
    · rw [if_neg hc, if_neg hc]

theorem parseDigitsAux_natToCharsAux (fuel n acc : Nat) (h : n ≤ fuel) :
    parseDigitsAux acc (natToCharsAux fuel n) =
      some (acc * 10 ^ (natToCharsAux fuel n).length + n) := by
  induction fuel generalizing n acc with
  | zero =>
    have hn : n = 0 := by omega
    subst hn
    rw [natToCharsAux]
    simp [parseDigitsAux]
  | succ fuel ih =>
    rw [natToCharsAux]
    by_cases hn : n = 0
    · subst hn
      rw [if_pos rfl]
      simp [parseDigitsAux]
    · rw [if_neg hn]
      have h10 : n / 10 < n := Nat.div_lt_self (Nat.pos_of_ne_zero hn) (by omega)
      rw [parseDigitsAux_append]
      simp only [ih (n / 10) acc (by omega)]
      have hmod : n % 10 < 10 := Nat.mod_lt n (by omega)
      obtain ⟨⟨hlo, hhi⟩, hval, _⟩ := digitChar_facts (n % 10) hmod
      rw [parseDigitsAux, if_pos ⟨hlo, hhi⟩, hval, parseDigitsAux]
      rw [List.length_append, List.length_singleton]
      congr 1
      have hdm := Nat.div_add_mod n 10
      rw [pow_succ]
      ring_nf
      omega

theorem parseNatChars_natToChars (n : Nat) :
    parseNatChars (natToChars n) = some n := by
  rw [natToChars]
  by_cases hn : n = 0
  · subst hn
    decide
  · rw [if_neg hn]
    rcases hl : natToCharsAux n n with _ | ⟨c, cs⟩
    · exact absurd hl (natToCharsAux_ne_nil n n hn (le_refl n))
    · show parseDigitsAux 0 (c :: cs) = some n
      have := parseDigitsAux_natToCharsAux n n 0 (le_refl n)
      rw [hl] at this
      simpa using this

theorem intToChars_shape (n : Int) :
    ∀ c ∈ intToChars n, c = '-' ∨ ∃ d, d < 10 ∧ c = digitChar d := by
  intro c hc
  rw [intToChars] at hc
  by_cases hn : n < 0
  · rw [if_pos hn] at hc
    rcases List.mem_cons.mp hc with rfl | hc'
    · exact Or.inl rfl
    · exact Or.inr (natToChars_digits _ c hc')
  · rw [if_neg hn] at hc
    exact Or.inr (natToChars_digits _ c hc)

theorem intToChars_ne_nil (n : Int) : intToChars n ≠ [] := by
  rw [intToChars]
  by_cases hn : n < 0
  · rw [if_pos hn]
    exact List.cons_ne_nil _ _
  · rw [if_neg hn]
    exact natToChars_ne_nil _

theorem natToChars_head_digit (n : Nat) :
    ∀ c cs, natToChars n = c :: cs → c ≠ '-' := by
  intro c cs h hcon
  have hc : c ∈ natToChars n := h ▸ List.mem_cons_self c cs
  obtain ⟨d, hd, hcd⟩ := natToChars_digits n c hc
  obtain ⟨_, _, _, _, hnd, _⟩ := digitChar_facts d hd
  exact hnd (hcd ▸ hcon)

theorem parseIntChars_intToChars (n : Int) :
    parseIntChars (intToChars n) = some n := by
  by_cases hn : n < 0
  · rw [intToChars, if_pos hn, parseIntChars, if_pos rfl,
      parseNatChars_natToChars]
    show some (-(n.natAbs : Int)) = some n
    congr 1
    omega
  · rw [intToChars, if_neg hn]
    rcases hl : natToChars n.toNat with _ | ⟨c, cs⟩
    · exact absurd hl (natToChars_ne_nil _)
    · rw [parseIntChars, if_neg (natToChars_head_digit n.toNat c cs hl)]
      have hp := parseNatChars_natToChars n.toNat
      rw [hl] at hp
      rw [hp]
      show some ((n.toNat : Nat) : Int) = some n
      congr 1
      omega

/-! ### Lemmas about the separator joins and splits -/

theorem splitSep_noSep (p : List Char) (hp : '%' ∉ p) : splitSep p = [p] := by
  induction p with
  | nil => rfl
  | cons c cs ih =>
    have hc : c ≠ '%' := fun h => hp (h ▸ List.mem_cons_self c cs)
    have hcs : '%' ∉ cs := fun h => hp (List.mem_cons_of_mem c h)
    rw [splitSep.eq_3 c cs (fun _ h1 _ => hc h1), ih hcs, consHead]

theorem splitSep_sep_cons (l : List Char) :
    splitSep ('%' :: '2' :: 'C' :: l) = [] :: splitSep l := by
  rfl

theorem splitSep_cons_ne (c : Char) (rest : List Char) (hc : c ≠ '%') :
    splitSep (c :: rest) = consHead c (splitSep rest) :=
  splitSep.eq_3 c rest (fun _ h1 _ => hc h1)

theorem splitSep_append_sep (p l : List Char) (hp : '%' ∉ p) :
    splitSep (p ++ '%' :: '2' :: 'C' :: l) = p :: splitSep l := by
  induction p with
  | nil => rw [List.nil_append, splitSep_sep_cons]
  | cons c cs ih =>
    have hc : c ≠ '%' := fun h => hp (h ▸ List.mem_cons_self c cs)
    have hcs : '%' ∉ cs := fun h => hp (List.mem_cons_of_mem c h)
    rw [List.cons_append, splitSep_cons_ne c _ hc, ih hcs, consHead]

theorem splitSep_joinSep (pieces : List (List Char)) (hne : pieces ≠ [])
    (hp : ∀ p ∈ pieces, '%' ∉ p) :
    splitSep (joinSep pieces) = pieces := by
  induction pieces with
  | nil => exact absurd rfl hne
  | cons p ps ih =>
    rcases ps with _ | ⟨q, qs⟩
    · rw [joinSep]
      exact splitSep_noSep p (hp p (List.mem_cons_self p []))
    · rw [joinSep, splitSep_append_sep p _ (hp p (List.mem_cons_self p _)),
        ih (by simp) (fun r hr => hp r (List.mem_cons_of_mem p hr))]

theorem mem_joinSep (pieces : List (List Char)) (c : Char)
    (h : c ∈ joinSep pieces) :
    (∃ p ∈ pieces, c ∈ p) ∨ c = '%' ∨ c = '2' ∨ c = 'C' := by
  induction pieces with
  | nil => simp [joinSep] at h
  | cons p ps ih =>
    rcases ps with _ | ⟨q, qs⟩
    · rw [joinSep] at h
      exact Or.inl ⟨p, List.mem_cons_self p [], h⟩
    · rw [joinSep] at h
      rcases List.mem_append.mp h with h' | h'
      · exact Or.inl ⟨p, List.mem_cons_self p _, h'⟩
      · rcases List.mem_cons.mp h' with rfl | h2
        · exact Or.inr (Or.inl rfl)
        · rcases List.mem_cons.mp h2 with rfl | h3
          · exact Or.inr (Or.inr (Or.inl rfl))
          · rcases List.mem_cons.mp h3 with rfl | h4
            · exact Or.inr (Or.inr (Or.inr rfl))
            · rcases ih h4 with ⟨r, hr, hcr⟩ | hother
              · exact Or.inl ⟨r, List.mem_cons_of_mem p hr, hcr⟩
              · exact Or.inr hother

theorem joinSep_ne_nil (p : List Char) (ps : List (List Char)) (hp : p ≠ []) :
    joinSep (p :: ps) ≠ [] := by
  rcases ps with _ | ⟨q, qs⟩
  · rw [joinSep]; exact hp
  · rw [joinSep]
    intro h
    rcases List.append_eq_nil.mp h with ⟨h1, h2⟩
    simp at h2

theorem splitComma_noComma (p : List Char) (hp : ',' ∉ p) :
    splitComma p = [p] := by
  induction p with
  | nil => rfl
  | cons c cs ih =>
    have hc : c ≠ ',' := fun h => hp (h ▸ List.mem_cons_self c cs)
    have hcs : ',' ∉ cs := fun h => hp (List.mem_cons_of_mem c h)
    rw [splitComma, if_neg hc, ih hcs, consHead]

theorem splitComma_append (p l : List Char) (hp : ',' ∉ p) :
    splitComma (p ++ ',' :: l) = p :: splitComma l := by
  induction p with
  | nil =>
    rw [List.nil_append, splitComma, if_pos rfl]
  | cons c cs ih =>
    have hc : c ≠ ',' := fun h => hp (h ▸ List.mem_cons_self c cs)
    have hcs : ',' ∉ cs := fun h => hp (List.mem_cons_of_mem c h)
    rw [List.cons_append, splitComma, if_neg hc, ih hcs, consHead]

theorem splitComma_joinComma (pieces : List (List Char)) (hne : pieces ≠ [])
    (hp : ∀ p ∈ pieces, ',' ∉ p) :
    splitComma (joinComma pieces) = pieces := by
  induction pieces with
  | nil => exact absurd rfl hne
  | cons p ps ih =>
    rcases ps with _ | ⟨q, qs⟩
    · rw [joinComma]
      exact splitComma_noComma p (hp p (List.mem_cons_self p []))
    · rw [joinComma, splitComma_append p _ (hp p (List.mem_cons_self p _)),
        ih (by simp) (fun r hr => hp r (List.mem_cons_of_mem p hr))]

/-! ### Plumbing lemmas about collectIdsPaged -/

theorem mem_enum_iff (l : List α) (p : Nat × α) :
    p ∈ l.enum ↔ l.get? p.1 = some p.2 := by
  rw [List.mem_enum_iff_getElem?, List.get?_eq_getElem?]

theorem nodup_flatten_unique (t : α) :
    ∀ (L : List (List α)), L.flatten.Nodup →
      ∀ i j b₁ b₂, L.get? i = some b₁ → L.get? j = some b₂ →
        t ∈ b₁ → t ∈ b₂ → i = j := by
  intro L
  induction L with
  | nil =>
    intro _ i j b₁ b₂ h1
    simp at h1
  | cons b L ih =>
    intro hnd i j b₁ b₂ h1 h2 ht1 ht2
    rw [List.flatten_cons, List.nodup_append] at hnd
    obtain ⟨hb, hL, hdisj⟩ := hnd
    cases i with
    | zero =>
      cases j with
      | zero => rfl
      | succ j =>
        simp only [List.get?_cons_zero, Option.some.injEq] at h1
        simp only [List.get?_cons_succ] at h2
        subst h1
        exact absurd (hdisj ht1 (List.mem_flatten.mpr
          ⟨b₂, List.get?_mem h2, ht2⟩)) (fun f => f)
    | succ i =>
      cases j with
      | zero =>
        simp only [List.get?_cons_zero, Option.some.injEq] at h2
        simp only [List.get?_cons_succ] at h1
        subst h2
        exact absurd (hdisj ht2 (List.mem_flatten.mpr
          ⟨b₁, List.get?_mem h1, ht1⟩)) (fun f => f)
      | succ j =>
        simp only [List.get?_cons_succ] at h1 h2
        have := ih hL i j b₁ b₂ h1 h2 ht1 ht2
        omega

theorem aggregateBatches_eq (oracle : Nat → List PageResp)
    (batches : List (List String)) (conc : Nat) :
    aggregateBatches oracle batches conc =
      match mapExcept (runBatchFn oracle) batches.enum with
      | .error e => .error e
      | .ok results => .ok (buildResult results) := by
  rw [aggregateBatches, runWindows_eq, chunksOf_flatten]

theorem collect_nonempty (input : String) (oracle : Nat → List PageResp)
    (bs conc : Nat) (h0 : normalizeOrderNumbers input ≠ []) :
    collectIdsPaged input oracle bs conc =
      aggregateBatches oracle (chunksOf bs (normalizeOrderNumbers input)) conc := by
  rw [collectIdsPaged]
  simp only [List.isEmpty_iff]
  rw [if_neg h0]

theorem collect_empty (input : String) (oracle : Nat → List PageResp)
    (bs conc : Nat) (h0 : normalizeOrderNumbers input = []) :
    collectIdsPaged input oracle bs conc = .ok ⟨[], "", []⟩ := by
  rw [collectIdsPaged]
  simp only [List.isEmpty_iff]
  rw [if_pos h0]

theorem runBatchFn_error (oracle : Nat → List PageResp) (p : Nat × List String)
    (e : FetchErr) :
    runBatchFn oracle p = .error e ↔
      searchBatchWithPagination p.2 (oracle p.1) = .error e := by
  rw [runBatchFn]
  cases searchBatchWithPagination p.2 (oracle p.1) <;>
    simp [Except.map]

theorem runBatchFn_ok (oracle : Nat → List PageResp) (p : Nat × List String)
    (pr : List Int × List String) :
    runBatchFn oracle p = .ok pr ↔
      ∃ r, searchBatchWithPagination p.2 (oracle p.1) = .ok r ∧
        pr = processBatchResults r.2 p.2 := by
  rw [runBatchFn]
  cases hr : searchBatchWithPagination p.2 (oracle p.1) with
  | error e => simp [Except.map]
  | ok r =>
    simp only [Except.map, Except.ok.injEq]
    constructor
    · intro h
      exact ⟨r, rfl, h.symm⟩
    · rintro ⟨r', hr', rfl⟩
      rw [hr']

theorem runBatchFn_ok_exists (oracle : Nat → List PageResp)
    (p : Nat × List String) :
    (∃ pr, runBatchFn oracle p = .ok pr) ↔
      (∃ r, searchBatchWithPagination p.2 (oracle p.1) = .ok r) := by
  constructor
  · rintro ⟨pr, hpr⟩
    obtain ⟨r, hr, _⟩ := (runBatchFn_ok oracle p pr).mp hpr
    exact ⟨r, hr⟩
  · rintro ⟨r, hr⟩
    exact ⟨processBatchResults r.2 p.2, (runBatchFn_ok oracle p _).mpr ⟨r, hr, rfl⟩⟩

theorem collect_ok_aggregate (input : String) (oracle : Nat → List PageResp)
    (bs conc : Nat) (res : SearchResult)
    (h0 : normalizeOrderNumbers input ≠ [])
    (h : collectIdsPaged input oracle bs conc = .ok res) :
    ∃ results,
      mapExcept (runBatchFn oracle)
        (chunksOf bs (normalizeOrderNumbers input)).enum = .ok results ∧
      res = buildResult results := by
  rw [collect_nonempty input oracle bs conc h0, aggregateBatches_eq] at h
  rcases hm : mapExcept (runBatchFn oracle)
      (chunksOf bs (normalizeOrderNumbers input)).enum with e | results
  · rw [hm] at h
    exact absurd h (by simp)
  · rw [hm] at h
    injection h with h'
    exact ⟨results, rfl, h'.symm⟩

theorem keepItem_echo_mem (requested : List String) (it : OrderItem)
    (t : String) (hk : keepItem requested it = true)
    (he : it.order_number = some t) : t ∈ requested := by
  rw [keepItem, he, Bool.and_eq_true] at hk
  obtain ⟨_, h2⟩ := hk
  rw [← mem_dedupePreserveOrder requested t]
  exact List.elem_iff.mp h2

theorem mem_processBatch_ids (items : List OrderItem) (requested : List String)
    (n : Int) :
    n ∈ (processBatchResults items requested).1 ↔
      ∃ it ∈ items, keepItem requested it = true ∧ it.id = some n := by
  rw [processBatchResults]
  simp only [List.mem_filterMap, List.mem_filter]
  constructor
  · rintro ⟨it, ⟨hmem, hkeep⟩, hid⟩
    exact ⟨it, hmem, hkeep, hid⟩
  · rintro ⟨it, hmem, hkeep, hid⟩
    exact ⟨it, ⟨hmem, hkeep⟩, hid⟩

theorem contains_mem_iff [DecidableEq α] (l : List α) (a : α) :
    l.contains a = true ↔ a ∈ l := List.elem_iff

theorem mem_processBatch_notFound (items : List OrderItem)
    (requested : List String) (t : String) :
    t ∈ (processBatchResults items requested).2 ↔
      t ∈ requested ∧
        ¬∃ it ∈ items, keepItem requested it = true ∧
          it.order_number = some t := by
  rw [processBatchResults]
  simp only [List.mem_filter, mem_dedupePreserveOrder]
  constructor
  · rintro ⟨hmem, hcont⟩
    refine ⟨hmem, ?_⟩
    rintro ⟨it, hit, hkeep, hecho⟩
    have hin : t ∈ (items.filter (keepItem requested)).filterMap
        (fun it => it.order_number) :=
      List.mem_filterMap.mpr ⟨it, List.mem_filter.mpr ⟨hit, hkeep⟩, hecho⟩
    rw [← contains_mem_iff] at hin
    rw [hin] at hcont
    simp at hcont
  · rintro ⟨hmem, hnone⟩
    refine ⟨hmem, ?_⟩
    cases h' : ((items.filter (keepItem requested)).filterMap
        (fun it => it.order_number)).contains t with
    | false => rfl
    | true =>
      obtain ⟨it, hit, hecho⟩ :=
        List.mem_filterMap.mp ((contains_mem_iff _ _).mp h')
      obtain ⟨hmem2, hkeep⟩ := List.mem_filter.mp hit
      exact absurd ⟨it, hmem2, hkeep, hecho⟩ hnone

theorem mem_buildResult_notFound (results : List (List Int × List String))
    (t : String) :
    t ∈ (buildResult results).notFound ↔ ∃ pr ∈ results, t ∈ pr.2 := by
  show t ∈ dedupePreserveOrder ((results.map Prod.snd).flatten) ↔ _
  rw [mem_dedupePreserveOrder, List.mem_flatten]
  constructor
  · rintro ⟨l, hl, htl⟩
    obtain ⟨pr, hpr, rfl⟩ := List.mem_map.mp hl
    exact ⟨pr, hpr, htl⟩
  · rintro ⟨pr, hpr, htpr⟩
    exact ⟨pr.2, List.mem_map.mpr ⟨pr, hpr, rfl⟩, htpr⟩

theorem mem_buildResult_ids (results : List (List Int × List String))
    (n : Int) :
    n ∈ (buildResult results).ids ↔ ∃ pr ∈ results, n ∈ pr.1 := by
  show n ∈ dedupePreserveOrder ((results.map Prod.fst).flatten) ↔ _
  rw [mem_dedupePreserveOrder, List.mem_flatten]
  constructor
  · rintro ⟨l, hl, hnl⟩
    obtain ⟨pr, hpr, rfl⟩ := List.mem_map.mp hl
    exact ⟨pr, hpr, hnl⟩
  · rintro ⟨pr, hpr, hnpr⟩
    exact ⟨pr.1, List.mem_map.mpr ⟨pr, hpr, rfl⟩, hnpr⟩

theorem batch_unique (input : String) (bs : Nat) (t : String)
    (p q : Nat × List String)
    (hp : p ∈ (chunksOf bs (normalizeOrderNumbers input)).enum)
    (hq : q ∈ (chunksOf bs (normalizeOrderNumbers input)).enum)
    (htp : t ∈ p.2) (htq : t ∈ q.2) : p = q := by
  rw [mem_enum_iff] at hp hq
  have hnd : (chunksOf bs (normalizeOrderNumbers input)).flatten.Nodup := by
    rw [chunksOf_flatten]
    exact normalize_nodup input
  have hij := nodup_flatten_unique t _ hnd p.1 q.1 p.2 q.2 hp hq htp htq
  have h2 : p.2 = q.2 := by
    rw [hij] at hp
    rw [hp] at hq
    injection hq
  rcases p with ⟨i, b⟩
  rcases q with ⟨j, d⟩
  simp only at hij h2
  rw [hij, h2]

theorem mem_batch_exists (input : String) (bs : Nat) (t : String)
    (ht : t ∈ normalizeOrderNumbers input) :
    ∃ p ∈ (chunksOf bs (normalizeOrderNumbers input)).enum, t ∈ p.2 := by
  have hflat := chunksOf_flatten bs (normalizeOrderNumbers input)
  have ht' : t ∈ (chunksOf bs (normalizeOrderNumbers input)).flatten := by
    rw [hflat]
    exact ht
  obtain ⟨b, hb, htb⟩ := List.mem_flatten.mp ht'
  obtain ⟨i, hi⟩ := List.mem_iff_get?.mp hb
  exact ⟨(i, b), (mem_enum_iff _ _).mpr hi, htb⟩

theorem notFound_iff_found (input : String) (oracle : Nat → List PageResp)
    (bs conc : Nat) (res : SearchResult)
    (h : collectIdsPaged input oracle bs conc = .ok res)
    (t : String) (ht : t ∈ normalizeOrderNumbers input) :
    t ∈ res.notFound ↔ ¬ tokenFoundInRun input oracle bs t := by
  have h0 : normalizeOrderNumbers input ≠ [] := by
    intro he
    rw [he] at ht
    simp at ht
  obtain ⟨results, hmap, rfl⟩ := collect_ok_aggregate input oracle bs conc res h0 h
  obtain ⟨p0, hp0, htp0⟩ := mem_batch_exists input bs t ht
  constructor
  · intro hnf
    obtain ⟨pr, hpr, htpr⟩ := (mem_buildResult_notFound results t).mp hnf
    obtain ⟨p, hp, hrun⟩ := (mapExcept_ok_mem _ _ _ hmap pr).mp hpr
    obtain ⟨r, hr, rfl⟩ := (runBatchFn_ok oracle p pr).mp hrun
    obtain ⟨htreq, hnone⟩ := (mem_processBatch_notFound r.2 p.2 t).mp htpr
    rintro ⟨p', hp', r', hr', it, hit, hk, hecho⟩
    have htp' : t ∈ p'.2 := keepItem_echo_mem p'.2 it t hk hecho
    have hpp' : p = p' := batch_unique input bs t p p' hp hp' htreq htp'
    rw [← hpp'] at hr' hk
    rw [hr] at hr'
    injection hr' with hrr
    rw [← hrr] at hit
    exact hnone ⟨it, hit, hk, hecho⟩
  · intro hnfound
    obtain ⟨pr, hpr⟩ := mapExcept_ok_forall _ _ _ hmap p0 hp0
    obtain ⟨r, hr, rfl⟩ := (runBatchFn_ok oracle p0 pr).mp hpr
    refine (mem_buildResult_notFound results t).mpr
      ⟨processBatchResults r.2 p0.2,
        (mapExcept_ok_mem _ _ _ hmap _).mpr ⟨p0, hp0, hpr⟩, ?_⟩
    refine (mem_processBatch_notFound r.2 p0.2 t).mpr ⟨htp0, ?_⟩
    rintro ⟨it, hit, hk, hecho⟩
    exact hnfound ⟨p0, hp0, r, hr, it, hit, hk, hecho⟩

theorem mem_collect_ids (input : String) (oracle : Nat → List PageResp)
    (bs conc : Nat) (res : SearchResult)
    (h : collectIdsPaged input oracle bs conc = .ok res) (n : Int) :
    n ∈ res.ids ↔
      ∃ p ∈ (chunksOf bs (normalizeOrderNumbers input)).enum,
        ∃ r, searchBatchWithPagination p.2 (oracle p.1) = .ok r ∧
          ∃ it ∈ r.2, keepItem p.2 it = true ∧ it.id = some n := by
  by_cases h0 : normalizeOrderNumbers input = []
  · rw [collect_empty input oracle bs conc h0] at h
    injection h with h'
    rw [← h', h0, chunksOf_nil]
    simp
  · obtain ⟨results, hmap, rfl⟩ := collect_ok_aggregate input oracle bs conc res h0 h
    rw [mem_buildResult_ids]
    constructor
    · rintro ⟨pr, hpr, hnpr⟩
      obtain ⟨p, hp, hrun⟩ := (mapExcept_ok_mem _ _ _ hmap pr).mp hpr
      obtain ⟨r, hr, rfl⟩ := (runBatchFn_ok oracle p pr).mp hrun
      obtain ⟨it, hit, hk, hid⟩ := (mem_processBatch_ids r.2 p.2 n).mp hnpr
      exact ⟨p, hp, r, hr, it, hit, hk, hid⟩
    · rintro ⟨p, hp, r, hr, it, hit, hk, hid⟩
      refine ⟨processBatchResults r.2 p.2,
        (mapExcept_ok_mem _ _ _ hmap _).mpr
          ⟨p, hp, (runBatchFn_ok oracle p _).mpr ⟨r, hr, rfl⟩⟩, ?_⟩
      exact (mem_processBatch_ids r.2 p.2 n).mpr ⟨it, hit, hk, hid⟩

/-! ### Remaining helper lemmas -/

theorem chunkGo_ne_nil (n : Nat) (l : List α) :
    ∀ (k : Nat) (acc : List α), ∀ c ∈ chunkGo n k acc l, c ≠ [] := by
  induction l with
  | nil =>
    intro k acc c hc
    rw [chunkGo] at hc
    by_cases h : acc.isEmpty
    · rw [if_pos h] at hc
      simp at hc
    · rw [if_neg h] at hc
      have hceq := List.mem_singleton.mp hc
      subst hceq
      intro he
      rw [he] at h
      exact h rfl
  | cons x xs ih =>
    intro k acc c hc
    rw [chunkGo] at hc
    by_cases hk : k ≤ 1
    · rw [if_pos hk] at hc
      rcases List.mem_cons.mp hc with rfl | hc'
      · simp
      · exact ih n [] c hc'
    · rw [if_neg hk] at hc
      exact ih (k - 1) (acc ++ [x]) c hc

theorem chunksOf_ne_nil (n : Nat) (l : List α) :
    ∀ c ∈ chunksOf n l, c ≠ [] :=
  chunkGo_ne_nil n l n []

theorem enum_get? (l : List α) (i : Nat) :
    (l.enum).get? i = (l.get? i).map (fun b => (i, b)) := by
  rw [List.get?_eq_getElem?, List.get?_eq_getElem?, List.getElem?_enum]

theorem keepItem_iff (requested : List String) (it : OrderItem) :
    keepItem requested it = true ↔
      it.locationsIsArray = true ∧
        ∃ s, it.order_number = some s ∧ s ∈ requested := by
  rw [keepItem, Bool.and_eq_true]
  constructor
  · rintro ⟨h1, h2⟩
    refine ⟨h1, ?_⟩
    rcases ho : it.order_number with _ | s
    · rw [ho] at h2
      exact absurd h2 (by simp)
    · rw [ho] at h2
      refine ⟨s, rfl, ?_⟩
      rw [← mem_dedupePreserveOrder requested s]
      exact (contains_mem_iff _ _).mp h2
  · rintro ⟨h1, s, ho, hs⟩
    refine ⟨h1, ?_⟩
    rw [ho]
    exact (contains_mem_iff _ _).mpr ((mem_dedupePreserveOrder requested s).mpr hs)

theorem mapM_parse_print (ids : List Int) :
    (ids.map intToChars).mapM parseIntChars = some ids := by
  induction ids with
  | nil => rfl
  | cons n rest ih =>
    rw [List.map_cons, List.mapM_cons, parseIntChars_intToChars, ih]
    rfl

theorem encodeIds_sep_free (ids : List Int) :
    ∀ p ∈ ids.map intToChars, '%' ∉ p := by
  intro p hp hin
  obtain ⟨n, _, rfl⟩ := List.mem_map.mp hp
  rcases intToChars_shape n '%' hin with h | ⟨d, hd, hdc⟩
  · exact absurd h (by decide)
  · obtain ⟨_, _, hne, _⟩ := digitChar_facts d hd
    exact hne hdc.symm

theorem decodeIds_encodeIds (ids : List Int) :
    decodeIds (encodeIds ids) = some ids := by
  rcases ids with _ | ⟨n, rest⟩
  · rfl
  · rw [decodeIds]
    have hne : (joinSep ((n :: rest).map intToChars)) ≠ [] := by
      rw [List.map_cons]
      exact joinSep_ne_nil _ _ (intToChars_ne_nil n)
    rw [encodeIds]
    simp only [List.isEmpty_iff]
    rw [if_neg hne]
    rw [splitSep_joinSep _ (by simp) (encodeIds_sep_free (n :: rest))]
    exact mapM_parse_print (n :: rest)

theorem encodeIds_chars (ids : List Int) :
    ∀ c ∈ (encodeIds ids).data, c ≠ ',' ∧ c.isWhitespace = false := by
  intro c hc
  rcases mem_joinSep _ c hc with ⟨p, hp, hcp⟩ | h | h | h
  · obtain ⟨m, _, rfl⟩ := List.mem_map.mp hp
    rcases intToChars_shape m c hcp with rfl | ⟨d, hd, rfl⟩
    · exact ⟨by decide, by decide⟩
    · obtain ⟨_, _, _, hcomma, _, hws⟩ := digitChar_facts d hd
      exact ⟨hcomma, hws⟩
  · subst h
    exact ⟨by decide, by decide⟩
  · subst h
    exact ⟨by decide, by decide⟩
  · subst h
    exact ⟨by decide, by decide⟩

/-! ### Claim theorems -/

/-- Claim C6: for every raw input string, normalizeOrderNumbers splits on
runs of comma/whitespace/newline characters, trims each piece, discards
empty pieces, and removes duplicate tokens keeping the first occurrence
position (so the result is a duplicate-free sublist of the trimmed pieces
with the same members); tokens are kept verbatim as strings, and the input
"B, A, A, C" yields exactly ["B", "A", "C"]. -/
theorem c6_normalize_split_trim_dedupe :
    normalizeOrderNumbers "B, A, A, C" = ["B", "A", "C"]
    ∧ (∀ input : String,
        normalizeOrderNumbers input = dedupePreserveOrder (tokenPieces input))
    ∧ dedupePreserveOrder ([] : List String) = []
    ∧ (∀ (a : String) (l : List String),
        dedupePreserveOrder (a :: l) =
          a :: dedupePreserveOrder (l.filter (fun b => b ≠ a)))
    ∧ (∀ l : List String, (dedupePreserveOrder l).Sublist l ∧
        (dedupePreserveOrder l).Nodup ∧
        ∀ x, x ∈ dedupePreserveOrder l ↔ x ∈ l) := by
  refine ⟨rfl, normalizeOrderNumbers_eq_dedupe, rfl,
    dedupePreserveOrder_cons, fun l => ⟨sublist_dedupePreserveOrder l,
      nodup_dedupePreserveOrder l, fun x => mem_dedupePreserveOrder l x⟩⟩

/-- Claim C7: for every token sequence and every batchSize > 0, the batcher
partitions the sequence into contiguous chunks (their concatenation in
order is the original sequence, and the chunk list is exactly the slice
loop take/drop decomposition), each chunk is nonempty and of size at most
batchSize, and for batchSize = 2 the tokens [a,b,c,d,e] partition into
[[a,b],[c,d],[e]]. -/
theorem c7_batch_partition :
    (∀ (bs : Nat) (l : List String), 0 < bs →
      (chunksOf bs l).flatten = l ∧
        (∀ chunk ∈ chunksOf bs l, chunk ≠ [] ∧ chunk.length ≤ bs) ∧
        chunksOf bs l =
          (if l.isEmpty then [] else l.take bs :: chunksOf bs (l.drop bs)))
    ∧ chunksOf 2 ["a", "b", "c", "d", "e"] = [["a", "b"], ["c", "d"], ["e"]] :=
  ⟨fun bs l hbs => ⟨chunksOf_flatten bs l, chunksOf_mem bs l hbs,
    chunksOf_eq_slice bs l hbs⟩, rfl⟩

/-- Witness for C7 at batchSize 2 and the five-token list. -/
theorem c7_batch_partition_witness :
    (chunksOf 2 ["a", "b", "c", "d", "e"]).flatten = ["a", "b", "c", "d", "e"] :=
  (c7_batch_partition.1 2 ["a", "b", "c", "d", "e"] (by decide)).1

set_option maxRecDepth 8000 in
/-- Claim C8: on every successfully fetched (2xx) page, the pagination loop
stops after that page exactly when the page returned zero items, or a total
count has been observed (the first observed one is kept) and the
accumulated item count reaches it, or the page returned strictly fewer
items than the requested page size; otherwise the page index is incremented
and the loop continues on the remaining pages.  A batch requesting size 500
against a stub returning pages of sizes [500, 500, 3] issues exactly 3 page
requests. -/
theorem c8_pagination_stop :
    (∀ (reqSize : Nat) (apiTotal : Option Nat) (collected status : Nat)
        (list : List OrderItem) (total : Option Nat) (rest : List PageResp),
      200 ≤ status → status ≤ 299 →
      fetchPages reqSize apiTotal collected (.http status list total :: rest) =
        (if list.length = 0 ∨
            totalReached (nextApiTotal apiTotal total)
              (collected + list.length) = true ∨
            list.length < reqSize
         then .ok (1, list)
         else (fetchPages reqSize (nextApiTotal apiTotal total)
             (collected + list.length) rest).map
           (fun r => (r.1 + 1, list ++ r.2))))
    ∧ (searchBatchWithPagination stubBatch500 stubPages500).map (fun r => r.1) =
        .ok 3 := by
  constructor
  · intro reqSize apiTotal collected status list total rest h1 h2
    simp only [fetchPages]
    rw [if_neg (show ¬ status = 401 by omega),
      if_neg (show ¬¬(200 ≤ status ∧ status ≤ 299) from fun hc => hc ⟨h1, h2⟩)]
    by_cases hA : list.length = 0
    · rw [if_pos hA, if_pos (Or.inl hA)]
    · rw [if_neg hA]
      by_cases hB : totalReached (nextApiTotal apiTotal total)
          (collected + list.length) = true
      · rw [if_pos hB, if_pos (Or.inr (Or.inl hB))]
      · rw [if_neg hB]
        by_cases hC : list.length < reqSize
        · rw [if_pos hC, if_pos (Or.inr (Or.inr hC))]
        · rw [if_neg hC, if_neg (show ¬(list.length = 0 ∨
            totalReached (nextApiTotal apiTotal total)
              (collected + list.length) = true ∨
            list.length < reqSize) from fun h => h.elim hA
              (fun h' => h'.elim hB hC))]
  · rfl

/-- Witness for C8: a 2xx page with zero items stops the loop after one
request. -/
theorem c8_pagination_stop_witness :
    fetchPages 500 none 0 [PageResp.http 200 [] none] = .ok (1, []) := by
  have h := c8_pagination_stop.1 500 none 0 200 [] none [] (by decide) (by decide)
  rw [h]
  rfl

/-- Claim C10: every token produced by normalizeOrderNumbers is non-empty
and contains no comma and no whitespace character; consequently the search
query value of any batch (the batch joined with a literal comma) splits
back into exactly the batch's tokens, so the number of comma-separated
fields equals the batch length. -/
theorem c10_token_query_unambiguous :
    (∀ (input t : String), t ∈ normalizeOrderNumbers input →
      t ≠ "" ∧ ∀ c ∈ t.data, c ≠ ',' ∧ c.isWhitespace = false)
    ∧ (∀ (input : String) (bs : Nat) (batch : List String),
        batch ∈ chunksOf bs (normalizeOrderNumbers input) →
        batch ≠ [] ∧
          splitComma (searchQueryValue batch).data = batch.map String.data ∧
          (splitComma (searchQueryValue batch).data).length = batch.length) := by
  constructor
  · exact fun input t ht => mem_normalize_shape input t ht
  · intro input bs batch hb
    have hne := chunksOf_ne_nil bs _ batch hb
    have htoks : ∀ t ∈ batch, t ∈ normalizeOrderNumbers input := by
      intro t ht
      have hmem : t ∈ (chunksOf bs (normalizeOrderNumbers input)).flatten :=
        List.mem_flatten.mpr ⟨batch, hb, ht⟩
      rwa [chunksOf_flatten] at hmem
    have hsplit : splitComma (searchQueryValue batch).data =
        batch.map String.data := by
      show splitComma (joinComma (batch.map String.data)) = batch.map String.data
      refine splitComma_joinComma _ ?_ ?_
      · intro hmapnil
        exact hne (List.map_eq_nil_iff.mp hmapnil)
      · intro p hp hcomma
        obtain ⟨t, htb, rfl⟩ := List.mem_map.mp hp
        obtain ⟨_, hchars⟩ := mem_normalize_shape input t (htoks t htb)
        exact (hchars ',' hcomma).1 rfl
    exact ⟨hne, hsplit, by rw [hsplit, List.length_map]⟩

/-- Witness for C10 on the input "A B" and its single batch. -/
theorem c10_token_query_unambiguous_witness :
    ("A" : String) ≠ "" ∧
      (splitComma (searchQueryValue ["A", "B"]).data).length =
        (["A", "B"] : List String).length := by
  have h1 := c10_token_query_unambiguous.1 "A B" "A" (by decide)
  have h2 := c10_token_query_unambiguous.2 "A B" 450 ["A", "B"] (by decide)
  exact ⟨h1.1, h2.2.2⟩

/-- Counterexample for C1: a single batch whose fetch fails with HTTP 500
(an UPSTREAM_ERROR) makes the whole collectIdsPaged call reject with that
error instead of completing normally with the batch's tokens reported in
notFound — there is no per-batch catch around the window's promises. -/
theorem c1_counterexample :
    collectIdsPagedDefault "A" upstream500Oracle =
      .error (FetchErr.upstream 500) := rfl

/-- Claim C1 (amended): if any batch's fetch fails — with UPSTREAM_ERROR,
DEADLINE or any other error — and every earlier batch succeeded, then the
whole collectIdsPaged call rejects with that batch's error; no best-effort
partial result is produced and no tokens are reported in notFound. -/
theorem c1_batch_failure_aborts (input : String) (oracle : Nat → List PageResp)
    (bs conc : Nat) (i : Nat) (b : List String) (e : FetchErr)
    (hget : (chunksOf bs (normalizeOrderNumbers input)).get? i = some b)
    (herr : searchBatchWithPagination b (oracle i) = .error e)
    (hok : ∀ j b', j < i →
      (chunksOf bs (normalizeOrderNumbers input)).get? j = some b' →
      ∃ r, searchBatchWithPagination b' (oracle j) = .ok r) :
    collectIdsPaged input oracle bs conc = .error e := by
  have h0 : normalizeOrderNumbers input ≠ [] := by
    intro he
    rw [he, chunksOf_nil] at hget
    simp at hget
  rw [collect_nonempty input oracle bs conc h0, aggregateBatches_eq]
  have hmap : mapExcept (runBatchFn oracle)
      (chunksOf bs (normalizeOrderNumbers input)).enum = .error e := by
    apply mapExcept_error_at _ _ i (i, b) e
    · rw [enum_get?, hget]
      rfl
    · exact (runBatchFn_error oracle (i, b) e).mpr herr
    · intro j p hj hget'
      rw [enum_get?] at hget'
      rcases hq : (chunksOf bs (normalizeOrderNumbers input)).get? j with _ | b'
      · rw [hq] at hget'
        exact absurd hget' (by simp)
      · rw [hq] at hget'
        injection hget' with hp
        subst hp
        obtain ⟨r, hr⟩ := hok j b' hj hq
        exact (runBatchFn_ok_exists oracle (j, b')).mpr ⟨r, hr⟩
  rw [hmap]

/-- Witness for the amended C1: batch 0 of the two-batch run fails with
HTTP 500 and the run rejects with UPSTREAM_ERROR 500. -/
theorem c1_batch_failure_aborts_witness :
    collectIdsPaged "A B" firstBatchFailsOracle 1 6 =
      .error (FetchErr.upstream 500) := by
  apply c1_batch_failure_aborts "A B" firstBatchFailsOracle 1 6 0 ["A"]
    (FetchErr.upstream 500)
  · rfl
  · rfl
  · intro j b' hj _
    exact absurd hj (Nat.not_lt_zero j)

/-- Counterexample for C2: a fetched record with a numeric id (5) but no
echoed order number is discarded entirely by the locations/order_number
filter — it contributes no id, and the searched token lands in notFound;
the claim instead demands that the record contribute id 5. -/
theorem c2_counterexample :
    processBatchResults [⟨some 5, none, true⟩] ["A"] = ([], ["A"]) ∧
      collectIdsPagedDefault "A" noEchoOracle = .ok ⟨[], "", ["A"]⟩ :=
  ⟨rfl, rfl⟩

/-- Claim C2 (amended): a fetched record contributes its id exactly when it
passes the keep filter — its locations field is an array, it carries an
echoed order number belonging to the batch's requested set — and its id
field parses as a finite number; all other records, including every record
lacking an echoed token and every record with a non-numeric or missing id,
are discarded silently and contribute no id. -/
theorem c2_amended_only_kept_records (items : List OrderItem)
    (requested : List String) (n : Int) :
    n ∈ (processBatchResults items requested).1 ↔
      ∃ it ∈ items, it.locationsIsArray = true ∧
        (∃ s, it.order_number = some s ∧ s ∈ requested) ∧ it.id = some n := by
  rw [mem_processBatch_ids]
  constructor
  · rintro ⟨it, hit, hk, hid⟩
    obtain ⟨h1, h2⟩ := (keepItem_iff requested it).mp hk
    exact ⟨it, hit, h1, h2, hid⟩
  · rintro ⟨it, hit, h1, h2, hid⟩
    exact ⟨it, hit, (keepItem_iff requested it).mpr ⟨h1, h2⟩, hid⟩

/-- Counterexample for C3: the token "T" is echoed by a kept record whose
id does not parse as a finite number; the run then classifies "T" neither
as contributing to a matched id (ids is empty) nor as unmatched (notFound
is empty), contradicting the claimed exactly-one-way classification. -/
theorem c3_counterexample :
    collectIdsPagedDefault "T" nonNumericIdOracle = .ok ⟨[], "", []⟩ ∧
      normalizeOrderNumbers "T" = ["T"] ∧
      keepItem ["T"] ⟨none, some "T", true⟩ = true :=
  ⟨rfl, rfl, by decide⟩

/-- Claim C3 (amended): in every completed run, each normalized token is
classified exactly one way as found or unmatched — it appears in notFound
exactly when no kept record of its batch echoes it — and the matched id
list consists exactly of the finite-parsing ids of kept records, so a token
echoed only by records with non-numeric ids counts as found yet contributes
no id. -/
theorem c3_amended_found_or_notfound (input : String)
    (oracle : Nat → List PageResp) (bs conc : Nat) (res : SearchResult)
    (h : collectIdsPaged input oracle bs conc = .ok res) :
    (∀ t ∈ normalizeOrderNumbers input,
      (t ∈ res.notFound ↔ ¬ tokenFoundInRun input oracle bs t))
    ∧ (∀ n : Int, n ∈ res.ids ↔
        ∃ p ∈ (chunksOf bs (normalizeOrderNumbers input)).enum,
          ∃ r, searchBatchWithPagination p.2 (oracle p.1) = .ok r ∧
            ∃ it ∈ r.2, keepItem p.2 it = true ∧ it.id = some n) :=
  ⟨fun t ht => notFound_iff_found input oracle bs conc res h t ht,
   fun n => mem_collect_ids input oracle bs conc res h n⟩

/-- Witness for the amended C3: in the run where "T" is echoed with id 7,
"T" is found and hence absent from notFound. -/
theorem c3_amended_found_or_notfound_witness :
    ("T" ∈ (SearchResult.mk [7] "7" []).notFound ↔
      ¬ tokenFoundInRun "T" echoes7Oracle 450 "T") :=
  (c3_amended_found_or_notfound "T" echoes7Oracle 450 6 ⟨[7], "7", []⟩ rfl).1
    "T" (by decide)

/-- Counterexample for C4: running the batch aggregation on two batches
that both search "999", where batch 0 returns a kept record matching "999"
(id 1), still reports "999" in notFound — the not-found computation is
per-batch (concatenated per-batch lists), not global. -/
theorem c4_counterexample :
    aggregateBatches overlapOracle [["999"], ["999"]] 6 =
        .ok ⟨[1], "1", ["999"]⟩ ∧
      keepItem ["999"] ⟨some 1, some "999", true⟩ = true ∧
      ("999" : String) ∈ (SearchResult.mk [1] "1" ["999"]).notFound :=
  ⟨rfl, by decide, by decide⟩

/-- Claim C4 (amended): the unmatched computation is per-batch, but in
collectIdsPaged no token is ever searched in two different batches — the
batches are disjoint chunks of the deduplicated token list — and a token
whose (unique) batch returns a kept matching record never appears in
notFound. -/
theorem c4_amended_disjoint_batches :
    (∀ (input : String) (bs : Nat) (p q : Nat × List String),
      p ∈ (chunksOf bs (normalizeOrderNumbers input)).enum →
      q ∈ (chunksOf bs (normalizeOrderNumbers input)).enum →
      p ≠ q → ∀ t, t ∈ p.2 → t ∉ q.2)
    ∧ (∀ (input : String) (oracle : Nat → List PageResp) (bs conc : Nat)
        (res : SearchResult) (t : String),
        collectIdsPaged input oracle bs conc = .ok res →
        tokenFoundInRun input oracle bs t → t ∉ res.notFound) := by
  constructor
  · intro input bs p q hp hq hpq t htp htq
    exact hpq (batch_unique input bs t p q hp hq htp htq)
  · intro input oracle bs conc res t h hfound
    obtain ⟨p, hp, r, hr, it, hit, hk, hecho⟩ := hfound
    have htp : t ∈ p.2 := keepItem_echo_mem p.2 it t hk hecho
    have ht : t ∈ normalizeOrderNumbers input := by
      have hb : p.2 ∈ chunksOf bs (normalizeOrderNumbers input) := by
        rw [mem_enum_iff] at hp
        exact List.get?_mem hp
      have hmem : t ∈ (chunksOf bs (normalizeOrderNumbers input)).flatten :=
        List.mem_flatten.mpr ⟨p.2, hb, htp⟩
      rwa [chunksOf_flatten] at hmem
    intro hnf
    exact (notFound_iff_found input oracle bs conc res h t ht).mp hnf
      ⟨p, hp, r, hr, it, hit, hk, hecho⟩

/-- Witness for the amended C4: "X" is found by its unique batch and is
absent from notFound. -/
theorem c4_amended_disjoint_batches_witness :
    ("X" : String) ∉ (SearchResult.mk [2] "2" []).notFound := by
  apply c4_amended_disjoint_batches.2 "X" echoes2Oracle 450 6 ⟨[2], "2", []⟩
    "X" rfl
  exact ⟨(0, ["X"]), by decide, (2, [⟨some 2, some "X", true⟩]), rfl,
    ⟨some 2, some "X", true⟩, by decide, by decide, rfl⟩

/-- Claim C5: if every batch's fetch either succeeds or fails with
UNAUTHORIZED, and at least one batch receives the 401 (so its fetch fails
with UNAUTHORIZED), the whole collectIdsPaged call rejects with
UNAUTHORIZED and returns no partial result; an HTTP 401 page response
always maps to the UNAUTHORIZED failure. -/
theorem c5_unauthorized_fast_fail :
    (∀ (input : String) (oracle : Nat → List PageResp) (bs conc : Nat),
      (∀ p ∈ (chunksOf bs (normalizeOrderNumbers input)).enum,
        (∃ r, searchBatchWithPagination p.2 (oracle p.1) = .ok r) ∨
          searchBatchWithPagination p.2 (oracle p.1) = .error .unauthorized) →
      (∃ p ∈ (chunksOf bs (normalizeOrderNumbers input)).enum,
        searchBatchWithPagination p.2 (oracle p.1) = .error .unauthorized) →
      collectIdsPaged input oracle bs conc = .error FetchErr.unauthorized)
    ∧ (∀ (reqSize : Nat) (apiTotal : Option Nat) (collected : Nat)
        (list : List OrderItem) (total : Option Nat) (rest : List PageResp),
        fetchPages reqSize apiTotal collected (.http 401 list total :: rest) =
          .error FetchErr.unauthorized) := by
  constructor
  · intro input oracle bs conc hall hex
    obtain ⟨p₁, hp₁, herr₁⟩ := hex
    have h0 : normalizeOrderNumbers input ≠ [] := by
      intro he
      rw [he, chunksOf_nil] at hp₁
      simp at hp₁
    rw [collect_nonempty input oracle bs conc h0, aggregateBatches_eq]
    rcases hm : mapExcept (runBatchFn oracle)
        (chunksOf bs (normalizeOrderNumbers input)).enum with e | results
    · obtain ⟨p₂, hp₂, herr₂⟩ := mapExcept_error_mem _ _ _ hm
      rw [runBatchFn_error] at herr₂
      rcases hall p₂ hp₂ with ⟨r, hr⟩ | hunauth
      · rw [hr] at herr₂
        exact absurd herr₂ (by simp)
      · rw [hunauth] at herr₂
        injection herr₂ with he'
        subst he'
        rfl
    · exfalso
      obtain ⟨pr, hpr⟩ := mapExcept_ok_forall _ _ _ hm p₁ hp₁
      obtain ⟨r, hr, _⟩ := (runBatchFn_ok oracle p₁ pr).mp hpr
      rw [herr₁] at hr
      exact absurd hr (by simp)
  · intro reqSize apiTotal collected list total rest
    simp only [fetchPages]
    rw [if_pos trivial]

/-- Witness for C5: batch 1 of the two-batch run gets a stubbed 401 while
batch 0 succeeds, and the run rejects with UNAUTHORIZED. -/
theorem c5_unauthorized_fast_fail_witness :
    collectIdsPaged "A B" secondBatch401Oracle 1 6 =
      .error FetchErr.unauthorized := by
  apply c5_unauthorized_fast_fail.1 "A B" secondBatch401Oracle 1 6
  · intro p hp
    have henum : (chunksOf 1 (normalizeOrderNumbers "A B")).enum =
        [(0, ["A"]), (1, ["B"])] := rfl
    rw [henum] at hp
    rcases List.mem_cons.mp hp with rfl | hp'
    · exact Or.inl ⟨(1, []), rfl⟩
    · rcases List.mem_cons.mp hp' with rfl | hp''
      · exact Or.inr rfl
      · simp at hp''
  · exact ⟨(1, ["B"]), by decide, rfl⟩

/-- Claim C9: for every completed run, idsEncoded is the decimal string
forms of the deduplicated ids joined by the literal three-character
separator "%2C", containing no raw comma and no whitespace, with the ids
deduplicated; splitting idsEncoded on "%2C" and parsing each field back to
an integer reproduces the ids list exactly and in order. -/
theorem c9_ids_encoding (input : String) (oracle : Nat → List PageResp)
    (bs conc : Nat) (res : SearchResult)
    (h : collectIdsPaged input oracle bs conc = .ok res) :
    res.idsEncoded = encodeIds res.ids ∧
      res.ids.Nodup ∧
      (∀ c ∈ res.idsEncoded.data, c ≠ ',' ∧ c.isWhitespace = false) ∧
      decodeIds res.idsEncoded = some res.ids := by
  have hmain : res.idsEncoded = encodeIds res.ids ∧ res.ids.Nodup := by
    by_cases h0 : normalizeOrderNumbers input = []
    · rw [collect_empty input oracle bs conc h0] at h
      injection h with h'
      rw [← h']
      exact ⟨rfl, List.nodup_nil⟩
    · obtain ⟨results, hmap, rfl⟩ :=
        collect_ok_aggregate input oracle bs conc res h0 h
      exact ⟨rfl, nodup_dedupePreserveOrder _⟩
  refine ⟨hmain.1, hmain.2, ?_, ?_⟩
  · rw [hmain.1]
    exact encodeIds_chars res.ids
  · rw [hmain.1]
    exact decodeIds_encodeIds res.ids

/-- Witness for C9: the run matching "A" to id 12 produces idsEncoded "12",
which decodes back to [12]. -/
theorem c9_ids_encoding_witness :
    decodeIds (SearchResult.mk [12] "12" []).idsEncoded =
        some (SearchResult.mk [12] "12" []).ids ∧
      (SearchResult.mk [12] "12" []).ids.Nodup := by
  have h := c9_ids_encoding "A" echoes12Oracle 450 6 ⟨[12], "12", []⟩ rfl
  exact ⟨h.2.2.2, h.2.1⟩

end OrderSearch
